import Mathlib

/-!
Verification of the constraint-filtering and guess-recommendation engine of
the Wordleologist trainer (`wordleologist.py`).

Modelling conventions:
* a word is a `List Char`; the lexicon (`FIVE_LETTER_WORDS`, loaded from the
  external Scrabble word file) is a `Finset Word` parameter of every query;
* `possible_letters` is the dict with keys 0–4 created by `reset`; the
  command layer validates green/yellow tokens to exactly five characters
  (`_validate_index_token`), so position indices never leave 0–4 and the
  dict is modelled as a total function on `Fin 5`;
* Python methods that can raise are modelled as returning
  `WordleTrainer × Option String` (the state reached when the exception
  propagates, plus the pending exception) or `Except String _` for pure
  queries, so partial mutation before an exception is represented exactly;
* `known_alphabet` (display-only colour bookkeeping) is omitted; the pure
  classification performed by `_evaluate_guess_char` is kept.
-/

abbrev Word := List Char

/-- The set backing `string.ascii_uppercase` used by `reset`. -/
def ascii_uppercase : List Char := "ABCDEFGHIJKLMNOPQRSTUVWXYZ".toList

/-- The three feedback categories produced by `_evaluate_guess_char`. -/
inductive GuessMark where
  | green
  | yellow
  | gray
deriving DecidableEq, Repr

/-- The mutable per-session state of a `WordleTrainer` object. -/
structure WordleTrainer where
  target_word : Option Word
  possible_letters : Fin 5 → Finset Char
  included : Finset Char
  excluded : Finset Char
  guessed_words : List Word
  hardmode : Bool

/-- `reset`: sets all attributes of the object to their initial state. -/
def WordleTrainer.reset (target_word : Option Word) : WordleTrainer :=
  { target_word := target_word
    possible_letters := fun _ => ascii_uppercase.toFinset
    included := ∅
    excluded := ∅
    guessed_words := []
    hardmode := false }

/-- Python `__init__(self, target_word=None)`: it calls `self.reset()`
without forwarding `target_word`, so the argument is discarded. -/
def WordleTrainer.init (_target_word : Option Word) : WordleTrainer :=
  WordleTrainer.reset none

/-- `new_random_wordle`: builds `WordleTrainer(random.choice(FIVE_LETTER_WORDS))`;
the randomly chosen word is passed in as a parameter. -/
def new_random_wordle (w : Word) : WordleTrainer :=
  WordleTrainer.init (some w)

/-- `_validate_guess`: length check, then a `RuntimeError` when no target
word is set, then lexicon membership of the upper-cased guess. -/
def WordleTrainer._validate_guess (lex : Finset Word) (st : WordleTrainer)
    (guess : Word) : Except String Bool :=
  if guess.length ≠ 5 then Except.ok false
  else
    match st.target_word with
    | none => Except.error "Target word not set"
    | some _ =>
      if guess.map Char.toUpper ∈ lex then Except.ok true else Except.ok false

/-- The pure classification inside `_evaluate_guess_char`: green when the
target has the guessed letter at this index, yellow when the letter occurs
elsewhere in the target, gray otherwise.  (The `known_alphabet` update the
Python method also performs is display-only and not modelled.) -/
def _evaluate_guess_char (target : Word) (index : Nat) (guess_char : Char) :
    GuessMark :=
  if target.get? index = some guess_char then GuessMark.green
  else if guess_char ∈ target then GuessMark.yellow
  else GuessMark.gray

/-- Does the word have a letter from `possible` at position `index`?
This is the per-word test of `_filter_by_letter` (`word[index] in possible`). -/
def charAtOk (index : Nat) (possible : Finset Char) (w : Word) : Bool :=
  match w.get? index with
  | some c => decide (c ∈ possible)
  | none => false

/-- Iteration over a Python set: the iteration order is unspecified, and
every loop of the program that iterates over a set is order-independent, so
the set is walked in sorted order (with an insertion sort that the kernel
can evaluate). -/
def finsetSorted {α : Type} [LinearOrder α] (s : Finset α) : List α :=
  Quot.liftOn s.val (fun l => List.insertionSort (· ≤ ·) l)
    (fun l₁ l₂ h =>
      List.eq_of_perm_of_sorted
        ((List.perm_insertionSort _ l₁).trans
          ((show List.Perm l₁ l₂ from h).trans
            (List.perm_insertionSort _ l₂).symm))
        (List.sorted_insertionSort _ l₁) (List.sorted_insertionSort _ l₂))

lemma mem_finsetSorted {α : Type} [LinearOrder α] (s : Finset α) (a : α) :
    a ∈ finsetSorted s ↔ a ∈ s := by
  rcases s with ⟨val, nodup⟩
  induction val using Quotient.inductionOn with
  | h l =>
    show a ∈ List.insertionSort (· ≤ ·) l ↔ _
    rw [(List.perm_insertionSort _ l).mem_iff]
    rfl

/-- `_filter_by_inlcuded` (sic): one pass per required letter, collecting the
words missing it into `bad_words` and removing them. -/
def _filter_by_inlcuded (included : Finset Char) (words : Finset Word) :
    Finset Word :=
  (finsetSorted included).foldl
    (fun ws c => ws \ ws.filter (fun w => c ∉ w)) words

/-- `_filter_by_letter`: collects the words whose letter at `index` is not in
`possible` into `bad_words` and removes them. -/
def _filter_by_letter (index : Fin 5) (possible : Finset Char)
    (words : Finset Word) : Finset Word :=
  words \ words.filter (fun w => charAtOk index.val possible w = false)

/-- The `remaining_words` value computed inside `possible_words`, before the
emptiness check. -/
def remaining_words (lex : Finset Word) (st : WordleTrainer) : Finset Word :=
  (List.finRange 5).foldl
    (fun ws index => _filter_by_letter index (st.possible_letters index) ws)
    (_filter_by_inlcuded st.included lex)

/-- `possible_words`: filters the lexicon through the constraints and raises
`ValueError` when nothing remains. -/
def possible_words (lex : Finset Word) (st : WordleTrainer) :
    Except String (Finset Word) :=
  let rem := remaining_words lex st
  if rem = ∅ then Except.error "No words are possible. Something went wrong!"
  else Except.ok rem

/-- `frequencies`: for each letter, the number of remaining words containing
it (each word contributes at most once per letter, via `set(word)`). -/
def frequencies (ws : Finset Word) : Char → Nat :=
  fun c => ws.sum (fun w => if c ∈ w then 1 else 0)

/-- `index_frequencies`: for each position and letter, the number of
remaining words carrying that letter at that position. -/
def index_frequencies (ws : Finset Word) : Nat → Char → Nat :=
  fun i c => ws.sum (fun w => if w.get? i = some c then 1 else 0)

/-- `exclude_at_index`: removes the supplied characters from the set of
possible characters at one index, but only while that set still has more
than one member. -/
def WordleTrainer.exclude_at_index (st : WordleTrainer) (index : Fin 5)
    (bad_chars : List Char) : WordleTrainer :=
  if 1 < (st.possible_letters index).card then
    { st with
      possible_letters :=
        Function.update st.possible_letters index
          (st.possible_letters index \ bad_chars.toFinset) }
  else st

/-- `exclude`: applies `exclude_at_index` at every position key (0–4). -/
def WordleTrainer.exclude (st : WordleTrainer) (bad_chars : List Char) :
    WordleTrainer :=
  (List.finRange 5).foldl
    (fun s index => WordleTrainer.exclude_at_index s index bad_chars) st

/-- `include`: adds the supplied characters to `included`.  (Named
`include_chars` because `include` is reserved in Lean.) -/
def WordleTrainer.include_chars (st : WordleTrainer) (good_chars : List Char) :
    WordleTrainer :=
  { st with included := st.included ∪ good_chars.toFinset }

/-- `assign_at_index`: raises `ValueError` when not given exactly one
character (before any mutation), otherwise collapses the position to the
single letter and records it in `included`. -/
def WordleTrainer.assign_at_index (st : WordleTrainer) (index : Fin 5)
    (char : List Char) : WordleTrainer × Option String :=
  if char.length ≠ 1 then
    (st, some "Tried to assign a string with improper number of characters")
  else
    ({ st with
        possible_letters :=
          Function.update st.possible_letters index char.toFinset
        included := st.included ∪ char.toFinset },
      none)

/-- `_process_char_assignment_str`: pairs each letter of the input with its
index, upper-cased, skipping non-letter characters. -/
def _process_char_assignment_str (input_str : List Char) :
    List (Nat × Char) :=
  (input_str.enum.filter (fun p => p.2.isAlpha)).map
    (fun p => (p.1, p.2.toUpper))

/-- One iteration of the `green` loop: assign the indexed letter, unless an
exception is already propagating.  Indices ≥ 5 cannot arise through the
command layer (green tokens are validated to exactly five characters); they
are surfaced as an error. -/
def greenStep (acc : WordleTrainer × Option String) (p : Nat × Char) :
    WordleTrainer × Option String :=
  match acc with
  | (s, some e) => (s, some e)
  | (s, none) =>
    if h : p.1 < 5 then
      WordleTrainer.assign_at_index s ⟨p.1, h⟩ [p.2]
    else (s, some "KeyError")

/-- `green`: assigns each indexed letter of the token. -/
def WordleTrainer.green (st : WordleTrainer) (characters : List Char) :
    WordleTrainer × Option String :=
  (_process_char_assignment_str characters).foldl greenStep (st, none)

/-- One iteration of the `yellow` loop: record the letter in `included` and
remove it from its position.  An index ≥ 5 raises `KeyError` after the
include has already mutated the state. -/
def yellowStep (acc : WordleTrainer × Option String) (p : Nat × Char) :
    WordleTrainer × Option String :=
  match acc with
  | (s, some e) => (s, some e)
  | (s, none) =>
    let s' := WordleTrainer.include_chars s [p.2]
    if h : p.1 < 5 then
      (WordleTrainer.exclude_at_index s' ⟨p.1, h⟩ [p.2], none)
    else (s', some "KeyError")

/-- `yellow`: for each indexed letter, records it in `included` and removes
it from that position. -/
def WordleTrainer.yellow (st : WordleTrainer) (characters : List Char) :
    WordleTrainer × Option String :=
  (_process_char_assignment_str characters).foldl yellowStep (st, none)

/-- `gray`: upper-cases the token and excludes every one of its characters
from every position. -/
def WordleTrainer.gray (st : WordleTrainer) (characters : List Char) :
    WordleTrainer :=
  WordleTrainer.exclude st (characters.map Char.toUpper)

/-- `toggle_hardmode`: flips the hardmode flag. -/
def WordleTrainer.toggle_hardmode (st : WordleTrainer) : WordleTrainer :=
  { st with hardmode := !st.hardmode }

/-- `_get_frequency_score`: sum of frequencies over the distinct letters of
the word that are in neither `included` nor `excluded`. -/
def _get_frequency_score (st : WordleTrainer) (freq : Char → Nat)
    (word : Word) : Nat :=
  (word.toFinset.filter
    (fun c => c ∉ st.included ∧ c ∉ st.excluded)).sum freq

/-- `_get_index_frequency_score`: sum of positional frequencies over the
indexed letters of the word. -/
def _get_index_frequency_score (freq : Nat → Char → Nat) (word : Word) :
    Nat :=
  (word.enum.map (fun p => freq p.1 p.2)).sum

/-- The best-score accumulation loop shared by the three recommenders:
tracks the best score seen so far (starting at 0) and the list of words
achieving it; `random.choice` then picks from that list. -/
def bestFold (score : Word → Nat) (words : List Word) : Nat × List Word :=
  words.foldl
    (fun acc w =>
      if score w = acc.1 then (acc.1, acc.2 ++ [w])
      else if acc.1 < score w then (score w, [w])
      else acc)
    (0, [])

/-- `find_best_guess_by_frequency`: information-score recommender.  The
returned list is the tied-maximizer list `random.choice` draws from. -/
def find_best_guess_by_frequency (lex : Finset Word) (st : WordleTrainer) :
    Except String (List Word) :=
  match possible_words lex st with
  | Except.error e => Except.error e
  | Except.ok pw =>
    let freq := frequencies pw
    let word_set := if st.hardmode then pw else lex
    Except.ok (bestFold (fun w => _get_frequency_score st freq w)
      (finsetSorted word_set)).2

/-- `find_best_guess_by_index`: positional-score recommender. -/
def find_best_guess_by_index (lex : Finset Word) (st : WordleTrainer) :
    Except String (List Word) :=
  match possible_words lex st with
  | Except.error e => Except.error e
  | Except.ok pw =>
    let freq := index_frequencies pw
    let words := if st.hardmode then pw else lex
    Except.ok (bestFold (fun w => _get_index_frequency_score freq w)
      (finsetSorted words)).2

/-- `find_best_guess_combined`: sum of the two scores over the same pool. -/
def find_best_guess_combined (lex : Finset Word) (st : WordleTrainer) :
    Except String (List Word) :=
  match possible_words lex st with
  | Except.error e => Except.error e
  | Except.ok pw =>
    let freq := frequencies pw
    let i_freq := index_frequencies pw
    let words := if st.hardmode then pw else lex
    Except.ok (bestFold
      (fun w => _get_frequency_score st freq w +
        _get_index_frequency_score i_freq w)
      (finsetSorted words)).2

/-- A word satisfies the constraint store when every position carries a
still-possible letter and every required letter occurs in the word. -/
def SatisfiesConstraints (st : WordleTrainer) (w : Word) : Prop :=
  (∀ i : Fin 5, charAtOk i.val (st.possible_letters i) w = true) ∧
  (∀ c ∈ st.included, c ∈ w)

instance (st : WordleTrainer) (w : Word) :
    Decidable (SatisfiesConstraints st w) := by
  unfold SatisfiesConstraints
  infer_instance

/-- A feedback command, as entered through the `green`/`yellow`/`gray`
command handlers. -/
inductive FeedbackOp where
  | green (s : List Char)
  | yellow (s : List Char)
  | gray (s : List Char)

/-- Runs one feedback command, returning the state it leaves behind together
with any exception it raises. -/
def applyFeedback (st : WordleTrainer) : FeedbackOp → WordleTrainer × Option String
  | FeedbackOp.green s => WordleTrainer.green st s
  | FeedbackOp.yellow s => WordleTrainer.yellow st s
  | FeedbackOp.gray s => (WordleTrainer.gray st s, none)

/-- Runs a sequence of feedback commands, keeping the state each one leaves
behind. -/
def applyFeedbacks (ops : List FeedbackOp) (st : WordleTrainer) : WordleTrainer :=
  ops.foldl (fun s op => (applyFeedback s op).1) st

/-- The feedback command was computed from the target word `t` with the
evaluation semantics of `_evaluate_guess_char`: every indexed letter of a
green token is green for `t`, every indexed letter of a yellow token is
yellow for `t`, and every letter of a gray token is gray for `t` (gray is
position-independent: it holds exactly when the letter occurs nowhere in
`t`, see `evaluate_gray_iff`). -/
def ConsistentOp (t : Word) : FeedbackOp → Prop
  | FeedbackOp.green s => ∀ p ∈ _process_char_assignment_str s,
      _evaluate_guess_char t p.1 p.2 = GuessMark.green
  | FeedbackOp.yellow s => ∀ p ∈ _process_char_assignment_str s,
      _evaluate_guess_char t p.1 p.2 = GuessMark.yellow
  | FeedbackOp.gray s => ∀ c ∈ s.map Char.toUpper,
      _evaluate_guess_char t 0 c = GuessMark.gray

instance (t : Word) (op : FeedbackOp) : Decidable (ConsistentOp t op) := by
  cases op <;> (unfold ConsistentOp) <;> infer_instance

/-- One primitive constraint-store mutation: a Green (`assign_at_index`), a
Yellow (`include` followed by `exclude_at_index`), or a Gray (`exclude`). -/
inductive PrimOp where
  | greenOp (i : Fin 5) (c : Char)
  | yellowOp (i : Fin 5) (c : Char)
  | grayOp (s : List Char)

/-- Runs one primitive mutation. -/
def applyPrim (st : WordleTrainer) : PrimOp → WordleTrainer × Option String
  | PrimOp.greenOp i c => WordleTrainer.assign_at_index st i [c]
  | PrimOp.yellowOp i c =>
      (WordleTrainer.exclude_at_index (WordleTrainer.include_chars st [c]) i [c],
        none)
  | PrimOp.grayOp s => (WordleTrainer.exclude st s, none)

/-- Reachable constraint-store states: everything obtainable from `reset`
through the mutating operations of the class. -/
inductive Reachable : WordleTrainer → Prop
  | reset (t : Option Word) : Reachable (WordleTrainer.reset t)
  | green (st : WordleTrainer) (s : List Char) :
      Reachable st → Reachable (WordleTrainer.green st s).1
  | yellow (st : WordleTrainer) (s : List Char) :
      Reachable st → Reachable (WordleTrainer.yellow st s).1
  | gray (st : WordleTrainer) (s : List Char) :
      Reachable st → Reachable (WordleTrainer.gray st s)
  | assign (st : WordleTrainer) (i : Fin 5) (c : List Char) :
      Reachable st → Reachable (WordleTrainer.assign_at_index st i c).1
  | includeC (st : WordleTrainer) (s : List Char) :
      Reachable st → Reachable (WordleTrainer.include_chars st s)
  | excludeC (st : WordleTrainer) (s : List Char) :
      Reachable st → Reachable (WordleTrainer.exclude st s)
  | excludeAt (st : WordleTrainer) (i : Fin 5) (s : List Char) :
      Reachable st → Reachable (WordleTrainer.exclude_at_index st i s)
  | toggle (st : WordleTrainer) :
      Reachable st → Reachable (WordleTrainer.toggle_hardmode st)

/-- A guessed character is marked green exactly when the target word has it
at the guessed position. -/
lemma evaluate_green_iff (t : Word) (i : Nat) (c : Char) :
    _evaluate_guess_char t i c = GuessMark.green ↔ t.get? i = some c := by
  unfold _evaluate_guess_char
  by_cases h : t.get? i = some c
  · rw [if_pos h]
    exact ⟨fun _ => h, fun _ => rfl⟩
  · rw [if_neg h]
    by_cases h2 : c ∈ t
    · rw [if_pos h2]
      exact ⟨fun hg => absurd hg (by decide), fun hc => absurd hc h⟩
    · rw [if_neg h2]
      exact ⟨fun hg => absurd hg (by decide), fun hc => absurd hc h⟩

/-- A guessed character is marked yellow exactly when it occurs in the
target but not at the guessed position. -/
lemma evaluate_yellow_iff (t : Word) (i : Nat) (c : Char) :
    _evaluate_guess_char t i c = GuessMark.yellow ↔
      t.get? i ≠ some c ∧ c ∈ t := by
  unfold _evaluate_guess_char
  by_cases h : t.get? i = some c
  · rw [if_pos h]
    exact ⟨fun hg => absurd hg (by decide), fun hc => absurd h hc.1⟩
  · rw [if_neg h]
    by_cases h2 : c ∈ t
    · rw [if_pos h2]
      exact ⟨fun _ => ⟨h, h2⟩, fun _ => rfl⟩
    · rw [if_neg h2]
      exact ⟨fun hg => absurd hg (by decide), fun hc => absurd hc.2 h2⟩

/-- A guessed character is marked gray exactly when it occurs nowhere in the
target word, irrespective of the position it was guessed at. -/
lemma evaluate_gray_iff (t : Word) (i : Nat) (c : Char) :
    _evaluate_guess_char t i c = GuessMark.gray ↔ c ∉ t := by
  unfold _evaluate_guess_char
  by_cases h2 : c ∈ t
  · by_cases h : t.get? i = some c
    · rw [if_pos h]
      exact ⟨fun hg => absurd hg (by decide), fun hc => absurd h2 hc⟩
    · rw [if_neg h, if_pos h2]
      exact ⟨fun hg => absurd hg (by decide), fun hc => absurd h2 hc⟩
  · have h : t.get? i ≠ some c := fun hc => h2 (List.get?_mem hc)
    rw [if_neg h, if_neg h2]
    exact ⟨fun _ => h2, fun _ => rfl⟩

lemma charAtOk_true_iff (i : Nat) (p : Finset Char) (w : Word) :
    charAtOk i p w = true ↔ ∃ c, w.get? i = some c ∧ c ∈ p := by
  unfold charAtOk
  cases h : w.get? i <;> simp

/-- Membership after the repeated-difference loop of `_filter_by_inlcuded`. -/
lemma mem_incl_foldl (l : List Char) (words : Finset Word) (w : Word) :
    w ∈ l.foldl (fun ws c => ws \ ws.filter (fun v => c ∉ v)) words ↔
      w ∈ words ∧ ∀ c ∈ l, c ∈ w := by
  induction l generalizing words with
  | nil => simp
  | cons a l ih =>
    rw [List.foldl_cons, ih]
    simp only [Finset.mem_sdiff, Finset.mem_filter, List.mem_cons]
    constructor
    · rintro ⟨⟨hw, hna⟩, hall⟩
      refine ⟨hw, ?_⟩
      intro c hc
      rcases hc with rfl | hc
      · by_contra hcw
        exact hna ⟨hw, hcw⟩
      · exact hall c hc
    · rintro ⟨hw, hall⟩
      exact ⟨⟨hw, fun h => h.2 (hall a (Or.inl rfl))⟩,
        fun c hc => hall c (Or.inr hc)⟩

lemma mem_filter_by_inlcuded (included : Finset Char) (words : Finset Word)
    (w : Word) :
    w ∈ _filter_by_inlcuded included words ↔
      w ∈ words ∧ ∀ c ∈ included, c ∈ w := by
  unfold _filter_by_inlcuded
  rw [mem_incl_foldl]
  constructor
  · rintro ⟨hw, hall⟩
    exact ⟨hw, fun c hc => hall c ((mem_finsetSorted _ _).2 hc)⟩
  · rintro ⟨hw, hall⟩
    exact ⟨hw, fun c hc => hall c ((mem_finsetSorted _ _).1 hc)⟩

lemma mem_filter_by_letter (index : Fin 5) (possible : Finset Char)
    (words : Finset Word) (w : Word) :
    w ∈ _filter_by_letter index possible words ↔
      w ∈ words ∧ charAtOk index.val possible w = true := by
  unfold _filter_by_letter
  simp only [Finset.mem_sdiff, Finset.mem_filter]
  constructor
  · rintro ⟨hw, hn⟩
    refine ⟨hw, ?_⟩
    cases h : charAtOk index.val possible w
    · exact absurd ⟨hw, h⟩ hn
    · rfl
  · rintro ⟨hw, h⟩
    exact ⟨hw, fun hc => by simp [h] at hc⟩

/-- Membership after the per-position filtering loop of `possible_words`. -/
lemma mem_letters_foldl (L : List (Fin 5)) (pl : Fin 5 → Finset Char)
    (ws0 : Finset Word) (w : Word) :
    w ∈ L.foldl (fun ws i => _filter_by_letter i (pl i) ws) ws0 ↔
      w ∈ ws0 ∧ ∀ i ∈ L, charAtOk i.val (pl i) w = true := by
  induction L generalizing ws0 with
  | nil => simp
  | cons a L ih =>
    rw [List.foldl_cons, ih, mem_filter_by_letter]
    simp only [List.mem_cons]
    constructor
    · rintro ⟨⟨hw, ha⟩, hall⟩
      refine ⟨hw, ?_⟩
      intro i hi
      rcases hi with rfl | hi
      · exact ha
      · exact hall i hi
    · rintro ⟨hw, hall⟩
      exact ⟨⟨hw, hall a (Or.inl rfl)⟩, fun i hi => hall i (Or.inr hi)⟩

/-- The filtered set computed inside `possible_words` is exactly the set of
lexicon words satisfying the constraint store. -/
lemma mem_remaining_words (lex : Finset Word) (st : WordleTrainer) (w : Word) :
    w ∈ remaining_words lex st ↔ w ∈ lex ∧ SatisfiesConstraints st w := by
  unfold remaining_words SatisfiesConstraints
  rw [mem_letters_foldl, mem_filter_by_inlcuded]
  constructor
  · rintro ⟨⟨hw, hincl⟩, hpos⟩
    exact ⟨hw, fun i => hpos i (List.mem_finRange i), hincl⟩
  · rintro ⟨hw, hpos, hincl⟩
    exact ⟨⟨hw, hincl⟩, fun i _ => hpos i⟩

/-- `possible_words` either raises the contradiction fault on an empty
filter result or returns the non-empty filter result. -/
lemma possible_words_spec (lex : Finset Word) (st : WordleTrainer) :
    (remaining_words lex st = ∅ ∧
      possible_words lex st =
        Except.error "No words are possible. Something went wrong!") ∨
    (remaining_words lex st ≠ ∅ ∧
      possible_words lex st = Except.ok (remaining_words lex st)) := by
  unfold possible_words
  by_cases h : remaining_words lex st = ∅
  · exact Or.inl ⟨h, by simp [h]⟩
  · exact Or.inr ⟨h, by simp [h]⟩

lemma possible_words_ok (lex : Finset Word) (st : WordleTrainer)
    (S : Finset Word) (h : possible_words lex st = Except.ok S) :
    S = remaining_words lex st ∧ remaining_words lex st ≠ ∅ := by
  rcases possible_words_spec lex st with ⟨he, hpw⟩ | ⟨hne, hpw⟩
  · rw [hpw] at h
    exact absurd h (by simp)
  · rw [hpw] at h
    cases h
    exact ⟨rfl, hne⟩

/-- Effect of `exclude_at_index` on each position set. -/
lemma exclude_at_index_pl (st : WordleTrainer) (i : Fin 5) (s : List Char)
    (j : Fin 5) :
    (WordleTrainer.exclude_at_index st i s).possible_letters j =
      if j = i then
        (if 1 < (st.possible_letters i).card then
          st.possible_letters i \ s.toFinset
        else st.possible_letters i)
      else st.possible_letters j := by
  unfold WordleTrainer.exclude_at_index
  by_cases h : 1 < (st.possible_letters i).card
  · rw [if_pos h]
    by_cases hj : j = i
    · subst hj
      rw [if_pos rfl, if_pos h]
      simp [Function.update_apply]
    · rw [if_neg hj]
      simp [Function.update_apply, hj]
  · rw [if_neg h]
    by_cases hj : j = i
    · subst hj
      rw [if_pos rfl, if_neg h]
    · rw [if_neg hj]

lemma exclude_at_index_included (st : WordleTrainer) (i : Fin 5)
    (s : List Char) :
    (WordleTrainer.exclude_at_index st i s).included = st.included := by
  unfold WordleTrainer.exclude_at_index
  split <;> rfl

lemma exclude_at_index_excluded (st : WordleTrainer) (i : Fin 5)
    (s : List Char) :
    (WordleTrainer.exclude_at_index st i s).excluded = st.excluded := by
  unfold WordleTrainer.exclude_at_index
  split <;> rfl

lemma exclude_fold_included (L : List (Fin 5)) (st : WordleTrainer)
    (s : List Char) :
    (L.foldl (fun a j => WordleTrainer.exclude_at_index a j s) st).included =
      st.included := by
  induction L generalizing st with
  | nil => rfl
  | cons a L ih => rw [List.foldl_cons, ih, exclude_at_index_included]

lemma exclude_fold_excluded (L : List (Fin 5)) (st : WordleTrainer)
    (s : List Char) :
    (L.foldl (fun a j => WordleTrainer.exclude_at_index a j s) st).excluded =
      st.excluded := by
  induction L generalizing st with
  | nil => rfl
  | cons a L ih => rw [List.foldl_cons, ih, exclude_at_index_excluded]

lemma exclude_included (st : WordleTrainer) (s : List Char) :
    (WordleTrainer.exclude st s).included = st.included :=
  exclude_fold_included _ _ _

lemma exclude_excluded (st : WordleTrainer) (s : List Char) :
    (WordleTrainer.exclude st s).excluded = st.excluded :=
  exclude_fold_excluded _ _ _

lemma exclude_fold_pl_not_mem (L : List (Fin 5)) (st : WordleTrainer)
    (s : List Char) (i : Fin 5) (hi : i ∉ L) :
    (L.foldl (fun a j => WordleTrainer.exclude_at_index a j s) st).possible_letters i =
      st.possible_letters i := by
  induction L generalizing st with
  | nil => rfl
  | cons a L ih =>
    rw [List.foldl_cons, ih _ (fun h => hi (List.mem_cons_of_mem a h)),
      exclude_at_index_pl,
      if_neg (fun h => hi (by rw [h]; exact List.mem_cons_self a L))]

lemma exclude_fold_pl_mem (L : List (Fin 5)) (st : WordleTrainer)
    (s : List Char) (i : Fin 5) (hnd : L.Nodup) (hi : i ∈ L) :
    (L.foldl (fun a j => WordleTrainer.exclude_at_index a j s) st).possible_letters i =
      if 1 < (st.possible_letters i).card then
        st.possible_letters i \ s.toFinset
      else st.possible_letters i := by
  induction L generalizing st with
  | nil => cases hi
  | cons a L ih =>
    rw [List.foldl_cons]
    rcases List.mem_cons.mp hi with rfl | hi'
    · have hiL : i ∉ L := (List.nodup_cons.mp hnd).1
      rw [exclude_fold_pl_not_mem L _ s i hiL, exclude_at_index_pl, if_pos rfl]
    · have hne : i ≠ a := fun h => (List.nodup_cons.mp hnd).1 (h ▸ hi')
      have hpl : (WordleTrainer.exclude_at_index st a s).possible_letters i =
          st.possible_letters i := by
        rw [exclude_at_index_pl, if_neg hne]
      rw [ih _ (List.nodup_cons.mp hnd).2 hi', hpl]

/-- Effect of `exclude` on each position set: the supplied characters are
removed at every position that still has more than one candidate letter;
positions at one (or zero) candidates are left untouched. -/
lemma exclude_pl (st : WordleTrainer) (s : List Char) (i : Fin 5) :
    (WordleTrainer.exclude st s).possible_letters i =
      if 1 < (st.possible_letters i).card then
        st.possible_letters i \ s.toFinset
      else st.possible_letters i := by
  unfold WordleTrainer.exclude
  exact exclude_fold_pl_mem _ _ _ _ (List.nodup_finRange 5) (List.mem_finRange i)

/-- `exclude_at_index` keeps a satisfying target satisfying as long as none
of the removed characters is the target's letter at that position. -/
lemma satisfies_exclude_at_index (st : WordleTrainer) (t : Word) (i : Fin 5)
    (s : List Char) (h : SatisfiesConstraints st t)
    (hs : ∀ c ∈ s, t.get? i.val ≠ some c) :
    SatisfiesConstraints (WordleTrainer.exclude_at_index st i s) t := by
  obtain ⟨hpos, hincl⟩ := h
  refine ⟨?_, ?_⟩
  · intro j
    rw [exclude_at_index_pl]
    by_cases hj : j = i
    · subst hj
      rw [if_pos rfl]
      by_cases hc : 1 < (st.possible_letters j).card
      · rw [if_pos hc]
        rcases (charAtOk_true_iff _ _ _).1 (hpos j) with ⟨c, hg, hcp⟩
        rw [charAtOk_true_iff]
        refine ⟨c, hg, Finset.mem_sdiff.2 ⟨hcp, fun hcs => ?_⟩⟩
        exact hs c (List.mem_toFinset.1 hcs) hg
      · rw [if_neg hc]
        exact hpos j
    · rw [if_neg hj]
      exact hpos j
  · intro c hc
    rw [exclude_at_index_included] at hc
    exact hincl c hc

/-- `exclude` keeps a satisfying target satisfying when every removed
character is absent from the target. -/
lemma satisfies_exclude (st : WordleTrainer) (t : Word) (s : List Char)
    (h : SatisfiesConstraints st t) (hs : ∀ c ∈ s, c ∉ t) :
    SatisfiesConstraints (WordleTrainer.exclude st s) t := by
  unfold WordleTrainer.exclude
  have key : ∀ (L : List (Fin 5)) (st' : WordleTrainer),
      SatisfiesConstraints st' t →
      SatisfiesConstraints
        (L.foldl (fun a j => WordleTrainer.exclude_at_index a j s) st') t := by
    intro L
    induction L with
    | nil => intro st' h'; exact h'
    | cons a L ih =>
      intro st' h'
      rw [List.foldl_cons]
      exact ih _ (satisfies_exclude_at_index _ _ _ _ h'
        (fun c hc hg => hs c hc (List.get?_mem hg)))
  exact key _ st h

/-- `include_chars` keeps a satisfying target satisfying when every added
character occurs in the target. -/
lemma satisfies_include_chars (st : WordleTrainer) (t : Word) (s : List Char)
    (h : SatisfiesConstraints st t) (hs : ∀ c ∈ s, c ∈ t) :
    SatisfiesConstraints (WordleTrainer.include_chars st s) t := by
  obtain ⟨hpos, hincl⟩ := h
  refine ⟨hpos, ?_⟩
  intro c hc
  rcases Finset.mem_union.1 hc with hc | hc
  · exact hincl c hc
  · exact hs c (List.mem_toFinset.1 hc)

/-- `assign_at_index` with the target's own letter at that position keeps
the target satisfying. -/
lemma satisfies_assign (st : WordleTrainer) (t : Word) (i : Fin 5) (c : Char)
    (h : SatisfiesConstraints st t) (hc : t.get? i.val = some c) :
    SatisfiesConstraints ((WordleTrainer.assign_at_index st i [c]).1) t := by
  obtain ⟨hpos, hincl⟩ := h
  unfold WordleTrainer.assign_at_index
  rw [if_neg (by simp)]
  refine ⟨?_, ?_⟩
  · intro j
    simp only [Function.update_apply]
    by_cases hj : j = i
    · subst hj
      rw [if_pos rfl, charAtOk_true_iff]
      exact ⟨c, hc, by simp⟩
    · rw [if_neg hj]
      exact hpos j
  · intro d hd
    rcases Finset.mem_union.1 hd with hd | hd
    · exact hincl d hd
    · have hdc : d = c := by simpa using hd
      subst hdc
      exact List.get?_mem hc

/-- One green-loop iteration keeps a satisfying target satisfying when the
indexed letter is green for the target. -/
lemma satisfies_greenStep (acc : WordleTrainer × Option String) (t : Word)
    (p : Nat × Char) (h : SatisfiesConstraints acc.1 t)
    (hp : _evaluate_guess_char t p.1 p.2 = GuessMark.green) :
    SatisfiesConstraints ((greenStep acc p).1) t := by
  obtain ⟨s, e⟩ := acc
  cases e with
  | some e => exact h
  | none =>
    rw [evaluate_green_iff] at hp
    show SatisfiesConstraints
      ((if h5 : p.1 < 5 then WordleTrainer.assign_at_index s ⟨p.1, h5⟩ [p.2]
        else (s, some "KeyError")).1) t
    by_cases h5 : p.1 < 5
    · rw [dif_pos h5]
      exact satisfies_assign s t ⟨p.1, h5⟩ p.2 h hp
    · rw [dif_neg h5]
      exact h

/-- One yellow-loop iteration keeps a satisfying target satisfying when the
indexed letter is yellow for the target. -/
lemma satisfies_yellowStep (acc : WordleTrainer × Option String) (t : Word)
    (p : Nat × Char) (h : SatisfiesConstraints acc.1 t)
    (hp : _evaluate_guess_char t p.1 p.2 = GuessMark.yellow) :
    SatisfiesConstraints ((yellowStep acc p).1) t := by
  obtain ⟨s, e⟩ := acc
  cases e with
  | some e => exact h
  | none =>
    rw [evaluate_yellow_iff] at hp
    have hinc : SatisfiesConstraints (WordleTrainer.include_chars s [p.2]) t :=
      satisfies_include_chars s t [p.2] h (by simpa using hp.2)
    show SatisfiesConstraints
      ((if h5 : p.1 < 5 then
          (WordleTrainer.exclude_at_index
            (WordleTrainer.include_chars s [p.2]) ⟨p.1, h5⟩ [p.2], none)
        else (WordleTrainer.include_chars s [p.2], some "KeyError")).1) t
    by_cases h5 : p.1 < 5
    · rw [dif_pos h5]
      exact satisfies_exclude_at_index _ t ⟨p.1, h5⟩ [p.2] hinc
        (by simpa using hp.1)
    · rw [dif_neg h5]
      exact hinc

set_option maxHeartbeats 1000000 in
/-- A whole feedback command consistent with the target keeps the target
satisfying the constraint store. -/
lemma satisfies_applyFeedback (st : WordleTrainer) (t : Word)
    (op : FeedbackOp) (h : SatisfiesConstraints st t)
    (hop : ConsistentOp t op) :
    SatisfiesConstraints ((applyFeedback st op).1) t := by
  cases op with
  | green s =>
    unfold applyFeedback WordleTrainer.green
    have key : ∀ (l : List (Nat × Char)) (acc : WordleTrainer × Option String),
        SatisfiesConstraints acc.1 t →
        (∀ p ∈ l, _evaluate_guess_char t p.1 p.2 = GuessMark.green) →
        SatisfiesConstraints ((l.foldl greenStep acc).1) t := by
      intro l
      induction l with
      | nil => intro acc ha _; exact ha
      | cons p l ih =>
        intro acc ha hl
        rw [List.foldl_cons]
        exact ih _ (satisfies_greenStep acc t p ha (hl p (List.mem_cons_self p l)))
          (fun q hq => hl q (List.mem_cons_of_mem p hq))
    exact key _ _ h hop
  | yellow s =>
    unfold applyFeedback WordleTrainer.yellow
    have key : ∀ (l : List (Nat × Char)) (acc : WordleTrainer × Option String),
        SatisfiesConstraints acc.1 t →
        (∀ p ∈ l, _evaluate_guess_char t p.1 p.2 = GuessMark.yellow) →
        SatisfiesConstraints ((l.foldl yellowStep acc).1) t := by
      intro l
      induction l with
      | nil => intro acc ha _; exact ha
      | cons p l ih =>
        intro acc ha hl
        rw [List.foldl_cons]
        exact ih _ (satisfies_yellowStep acc t p ha (hl p (List.mem_cons_self p l)))
          (fun q hq => hl q (List.mem_cons_of_mem p hq))
    exact key _ _ h hop
  | gray s =>
    have hs : ∀ c ∈ s.map Char.toUpper, c ∉ t := by
      intro c hc
      exact (evaluate_gray_iff t 0 c).1 (hop c hc)
    exact satisfies_exclude st t (s.map Char.toUpper) h hs

/-- A sequence of feedback commands consistent with the target keeps the
target satisfying the constraint store. -/
lemma satisfies_applyFeedbacks (ops : List FeedbackOp) (st : WordleTrainer)
    (t : Word) (h : SatisfiesConstraints st t)
    (hops : ∀ op ∈ ops, ConsistentOp t op) :
    SatisfiesConstraints (applyFeedbacks ops st) t := by
  unfold applyFeedbacks
  induction ops generalizing st with
  | nil => exact h
  | cons op ops ih =>
    rw [List.foldl_cons]
    exact ih _ (satisfies_applyFeedback st t op h (hops op (List.mem_cons_self op ops)))
      (fun q hq => hops q (List.mem_cons_of_mem op hq))

/-- A five-letter word over the upper-case alphabet satisfies the freshly
reset constraint store. -/
lemma satisfies_reset (tw : Option Word) (t : Word) (hlen : t.length = 5)
    (halpha : ∀ c ∈ t, c ∈ ascii_uppercase.toFinset) :
    SatisfiesConstraints (WordleTrainer.reset tw) t := by
  refine ⟨?_, ?_⟩
  · intro i
    rw [charAtOk_true_iff]
    have hi : i.val < t.length := by rw [hlen]; exact i.isLt
    exact ⟨t.get ⟨i.val, hi⟩, List.get?_eq_get hi,
      halpha _ (List.get_mem t i.val hi)⟩
  · intro c hc
    exact absurd hc (Finset.not_mem_empty c)

lemma bestFold_concat (score : Word → Nat) (l : List Word) (a : Word) :
    bestFold score (l ++ [a]) =
      if score a = (bestFold score l).1 then
        ((bestFold score l).1, (bestFold score l).2 ++ [a])
      else if (bestFold score l).1 < score a then (score a, [a])
      else bestFold score l := by
  unfold bestFold
  rw [List.foldl_append]
  rfl

/-- The loop of the recommenders keeps, as its first component, an upper
bound of all scores seen, and, as its second component, exactly the words
that achieve it. -/
lemma bestFold_spec (score : Word → Nat) (l : List Word) :
    (∀ v ∈ l, score v ≤ (bestFold score l).1) ∧
    (∀ w, w ∈ (bestFold score l).2 ↔
      w ∈ l ∧ score w = (bestFold score l).1) := by
  induction l using List.reverseRecOn with
  | nil => simp [bestFold]
  | append_singleton l a ih =>
    rw [bestFold_concat]
    by_cases h1 : score a = (bestFold score l).1
    · rw [if_pos h1]
      constructor
      · intro v hv
        rcases List.mem_append.1 hv with hv | hv
        · exact ih.1 v hv
        · have : v = a := by simpa using hv
          subst this
          rw [h1]
      · intro w
        constructor
        · intro hw
          rcases List.mem_append.1 hw with hw | hw
          · have := (ih.2 w).1 hw
            exact ⟨List.mem_append.2 (Or.inl this.1), this.2⟩
          · have : w = a := by simpa using hw
            subst this
            exact ⟨List.mem_append.2 (Or.inr (by simp)), h1⟩
        · rintro ⟨hw, hs⟩
          rcases List.mem_append.1 hw with hw | hw
          · exact List.mem_append.2 (Or.inl ((ih.2 w).2 ⟨hw, hs⟩))
          · exact List.mem_append.2 (Or.inr hw)
    · rw [if_neg h1]
      by_cases h2 : (bestFold score l).1 < score a
      · rw [if_pos h2]
        constructor
        · intro v hv
          rcases List.mem_append.1 hv with hv | hv
          · exact le_trans (ih.1 v hv) (le_of_lt h2)
          · have : v = a := by simpa using hv
            subst this
            exact le_refl _
        · intro w
          constructor
          · intro hw
            have : w = a := by simpa using hw
            subst this
            exact ⟨List.mem_append.2 (Or.inr (by simp)), rfl⟩
          · rintro ⟨hw, hs⟩
            rcases List.mem_append.1 hw with hw | hw
            · have hlt : score w < score a :=
                lt_of_le_of_lt (ih.1 w hw) h2
              rw [hs] at hlt
              exact absurd hlt (lt_irrefl _)
            · simpa using hw
      · rw [if_neg h2]
        have h3 : score a < (bestFold score l).1 :=
          lt_of_le_of_ne (not_lt.1 h2) h1
        constructor
        · intro v hv
          rcases List.mem_append.1 hv with hv | hv
          · exact ih.1 v hv
          · have : v = a := by simpa using hv
            subst this
            exact le_of_lt h3
        · intro w
          constructor
          · intro hw
            have := (ih.2 w).1 hw
            exact ⟨List.mem_append.2 (Or.inl this.1), this.2⟩
          · rintro ⟨hw, hs⟩
            rcases List.mem_append.1 hw with hw | hw
            · exact (ih.2 w).2 ⟨hw, hs⟩
            · have : w = a := by simpa using hw
              subst this
              rw [hs] at h3
              exact absurd h3 (lt_irrefl _)

lemma bestFold_fst_le (score : Word → Nat) (l : List Word) (b : Nat)
    (hb : ∀ v ∈ l, score v ≤ b) : (bestFold score l).1 ≤ b := by
  induction l using List.reverseRecOn with
  | nil => simp [bestFold]
  | append_singleton l a ih =>
    rw [bestFold_concat]
    by_cases h1 : score a = (bestFold score l).1
    · rw [if_pos h1]
      exact ih (fun v hv => hb v (List.mem_append.2 (Or.inl hv)))
    · rw [if_neg h1]
      by_cases h2 : (bestFold score l).1 < score a
      · rw [if_pos h2]
        exact hb a (List.mem_append.2 (Or.inr (by simp)))
      · rw [if_neg h2]
        exact ih (fun v hv => hb v (List.mem_append.2 (Or.inl hv)))

/-- The word list left by the recommender loop is exactly the set of words
of the pool with maximal score. -/
lemma bestFold_argmax (score : Word → Nat) (l : List Word) (w : Word) :
    w ∈ (bestFold score l).2 ↔ w ∈ l ∧ ∀ v ∈ l, score v ≤ score w := by
  rw [(bestFold_spec score l).2 w]
  constructor
  · rintro ⟨hw, hs⟩
    exact ⟨hw, fun v hv => hs ▸ (bestFold_spec score l).1 v hv⟩
  · rintro ⟨hw, hmax⟩
    exact ⟨hw, le_antisymm ((bestFold_spec score l).1 w hw)
      (bestFold_fst_le score l (score w) hmax)⟩

/-- Shrinking every per-position letter set and growing the inclusion set
can only shrink the filtered candidate set. -/
lemma remaining_words_mono (lex : Finset Word) (st st' : WordleTrainer)
    (hpl : ∀ i, st'.possible_letters i ⊆ st.possible_letters i)
    (hinc : st.included ⊆ st'.included) :
    remaining_words lex st' ⊆ remaining_words lex st := by
  intro w hw
  rw [mem_remaining_words] at hw ⊢
  obtain ⟨hlex, hpos, hincl⟩ := hw
  refine ⟨hlex, ?_, ?_⟩
  · intro i
    rcases (charAtOk_true_iff _ _ _).1 (hpos i) with ⟨c, hg, hc⟩
    rw [charAtOk_true_iff]
    exact ⟨c, hg, hpl i hc⟩
  · intro c hc
    exact hincl c (hinc hc)

/-- A Green operation is valid at a state when its letter is still possible
at the assigned position; Yellow and Gray operations are always valid. -/
def PrimOpValid (st : WordleTrainer) : PrimOp → Prop
  | PrimOp.greenOp i c => c ∈ st.possible_letters i
  | PrimOp.yellowOp _ _ => True
  | PrimOp.grayOp _ => True

instance (st : WordleTrainer) (op : PrimOp) : Decidable (PrimOpValid st op) := by
  cases op <;> unfold PrimOpValid <;> infer_instance

/-- `assign_at_index` with a single character: the explicit resulting
state. -/
lemma assign_ok (st : WordleTrainer) (i : Fin 5) (c : Char) :
    WordleTrainer.assign_at_index st i [c] =
      ({ st with
          possible_letters := Function.update st.possible_letters i {c}
          included := insert c st.included }, none) := by
  unfold WordleTrainer.assign_at_index
  rw [if_neg (by simp)]
  have hu : st.included ∪ {c} = insert c st.included := by
    ext x
    simp [or_comm]
  simp [hu]

lemma assign_at_index_excluded (st : WordleTrainer) (i : Fin 5)
    (ch : List Char) :
    ((WordleTrainer.assign_at_index st i ch).1).excluded = st.excluded := by
  unfold WordleTrainer.assign_at_index
  split <;> rfl

lemma assign_at_index_included_sub (st : WordleTrainer) (i : Fin 5)
    (ch : List Char) :
    st.included ⊆ ((WordleTrainer.assign_at_index st i ch).1).included := by
  unfold WordleTrainer.assign_at_index
  split
  · exact Finset.Subset.refl _
  · exact Finset.subset_union_left

lemma greenStep_excluded (acc : WordleTrainer × Option String) (p : Nat × Char) :
    ((greenStep acc p).1).excluded = acc.1.excluded := by
  obtain ⟨s, e⟩ := acc
  cases e with
  | none =>
    show ((if h : p.1 < 5 then
        WordleTrainer.assign_at_index s ⟨p.1, h⟩ [p.2]
      else (s, some "KeyError")).1).excluded = s.excluded
    by_cases h5 : p.1 < 5
    · rw [dif_pos h5]
      exact assign_at_index_excluded s ⟨p.1, h5⟩ [p.2]
    · rw [dif_neg h5]
  | some e => rfl

lemma yellowStep_excluded (acc : WordleTrainer × Option String) (p : Nat × Char) :
    ((yellowStep acc p).1).excluded = acc.1.excluded := by
  obtain ⟨s, e⟩ := acc
  cases e with
  | none =>
    show ((if h : p.1 < 5 then
        (WordleTrainer.exclude_at_index
          (WordleTrainer.include_chars s [p.2]) ⟨p.1, h⟩ [p.2], none)
      else (WordleTrainer.include_chars s [p.2], some "KeyError")).1).excluded =
      s.excluded
    by_cases h5 : p.1 < 5
    · rw [dif_pos h5]
      exact exclude_at_index_excluded _ _ _
    · rw [dif_neg h5]
      rfl
  | some e => rfl

lemma green_excluded (st : WordleTrainer) (s : List Char) :
    ((WordleTrainer.green st s).1).excluded = st.excluded := by
  unfold WordleTrainer.green
  have key : ∀ (l : List (Nat × Char)) (acc : WordleTrainer × Option String),
      ((l.foldl greenStep acc).1).excluded = acc.1.excluded := by
    intro l
    induction l with
    | nil => intro acc; rfl
    | cons p l ih =>
      intro acc
      rw [List.foldl_cons, ih, greenStep_excluded]
  exact key _ _

lemma yellow_excluded (st : WordleTrainer) (s : List Char) :
    ((WordleTrainer.yellow st s).1).excluded = st.excluded := by
  unfold WordleTrainer.yellow
  have key : ∀ (l : List (Nat × Char)) (acc : WordleTrainer × Option String),
      ((l.foldl yellowStep acc).1).excluded = acc.1.excluded := by
    intro l
    induction l with
    | nil => intro acc; rfl
    | cons p l ih =>
      intro acc
      rw [List.foldl_cons, ih, yellowStep_excluded]
  exact key _ _

instance {ε α : Type} [DecidableEq ε] [DecidableEq α] :
    DecidableEq (Except ε α) := fun a b =>
  match a, b with
  | Except.ok x, Except.ok y =>
    if h : x = y then isTrue (by rw [h])
    else isFalse (fun hc => h (Except.ok.inj hc))
  | Except.error x, Except.error y =>
    if h : x = y then isTrue (by rw [h])
    else isFalse (fun hc => h (Except.error.inj hc))
  | Except.ok _, Except.error _ => isFalse (fun hc => Except.noConfusion hc)
  | Except.error _, Except.ok _ => isFalse (fun hc => Except.noConfusion hc)

/-- C5: the Gray operation leaves `possible_letters[i]` unchanged at every
position whose candidate set has at most one letter left — in particular at
every singleton position, even when its letter is among the gray letters —
and it removes exactly the gray letters at every position that still has
more than one candidate letter. -/
theorem gray_non_regression (st : WordleTrainer) (characters : List Char)
    (i : Fin 5) :
    ((st.possible_letters i).card ≤ 1 →
      (WordleTrainer.gray st characters).possible_letters i =
        st.possible_letters i) ∧
    (1 < (st.possible_letters i).card →
      (WordleTrainer.gray st characters).possible_letters i =
        st.possible_letters i \ (characters.map Char.toUpper).toFinset) := by
  constructor
  · intro hle
    unfold WordleTrainer.gray
    rw [exclude_pl, if_neg (by exact not_lt.2 hle)]
  · intro hlt
    unfold WordleTrainer.gray
    rw [exclude_pl, if_pos hlt]

/-- Witness for C5 at a concrete store: after Green(0,'A'), Gray("AB")
leaves position 0 at the singleton containing A and removes A and B from
position 1. -/
theorem gray_non_regression_witness :
    ((WordleTrainer.gray
        ((WordleTrainer.assign_at_index (WordleTrainer.reset none) 0 ['A']).1)
        ['A','B']).possible_letters 0 =
      ((WordleTrainer.assign_at_index (WordleTrainer.reset none) 0
        ['A']).1).possible_letters 0) ∧
    ((WordleTrainer.gray
        ((WordleTrainer.assign_at_index (WordleTrainer.reset none) 0 ['A']).1)
        ['A','B']).possible_letters 1 =
      ((WordleTrainer.assign_at_index (WordleTrainer.reset none) 0
        ['A']).1).possible_letters 1 \
        ((['A','B'] : List Char).map Char.toUpper).toFinset) :=
  ⟨(gray_non_regression _ ['A','B'] 0).1 (by decide),
    (gray_non_regression _ ['A','B'] 1).2 (by decide)⟩

/-- C8: `assign_at_index` faults exactly when its argument is not one
character long, a faulting call leaves the store unchanged, and a
single-character call collapses the position to that letter and records it
in `included`. -/
theorem green_rejection_atomicity (st : WordleTrainer) (index : Fin 5)
    (char : List Char) :
    (((WordleTrainer.assign_at_index st index char).2).isSome ↔
      char.length ≠ 1) ∧
    (((WordleTrainer.assign_at_index st index char).2).isSome →
      (WordleTrainer.assign_at_index st index char).1 = st) ∧
    (∀ c, char = [c] →
      WordleTrainer.assign_at_index st index char =
        ({ st with
            possible_letters := Function.update st.possible_letters index {c}
            included := insert c st.included }, none)) := by
  refine ⟨?_, ?_, ?_⟩
  · unfold WordleTrainer.assign_at_index
    by_cases h : char.length ≠ 1
    · rw [if_pos h]
      simp [h]
    · rw [if_neg h]
      simp [h]
  · unfold WordleTrainer.assign_at_index
    by_cases h : char.length ≠ 1
    · rw [if_pos h]
      intro _
      rfl
    · rw [if_neg h]
      intro hs
      exact absurd hs (by simp)
  · intro c hc
    subst hc
    exact assign_ok st index c

/-- Witness for C8: assigning 'Q' at position 0 of a fresh store collapses
the position and includes the letter; assigning the empty string faults. -/
theorem green_rejection_atomicity_witness :
    (WordleTrainer.assign_at_index (WordleTrainer.reset none) 0 ['Q'] =
      ({ WordleTrainer.reset none with
          possible_letters :=
            Function.update (WordleTrainer.reset none).possible_letters 0 {'Q'}
          included := insert 'Q' (WordleTrainer.reset none).included }, none)) ∧
    ((WordleTrainer.assign_at_index (WordleTrainer.reset none) 0 []).2).isSome :=
  ⟨(green_rejection_atomicity (WordleTrainer.reset none) 0 ['Q']).2.2 'Q' rfl,
    ((green_rejection_atomicity (WordleTrainer.reset none) 0 []).1).2
      (by decide)⟩

/-- Counterexample for C10 as stated: on an object whose target word was
discarded by the constructor, validating the two-character guess "AB" does
not raise the missing-target fault — it returns False from the length check
first. -/
theorem constructor_discards_target_cex :
    WordleTrainer._validate_guess ∅
      (new_random_wordle ['C','R','A','N','E']) ['A','B'] =
      Except.ok false := by
  rfl

/-- C10 (amended): the constructor discards its target argument, so
`WordleTrainer(w)` and `new_random_wordle()` hold no target word; the
missing-target fault is raised when validating any five-character guess,
while guesses of any other length are rejected with False by the length
check before the target is consulted; only `reset(target_word=w)` sets a
target. -/
theorem constructor_discards_target (lex : Finset Word) (w g : Word) :
    (WordleTrainer.init (some w)).target_word = none ∧
    (new_random_wordle w).target_word = none ∧
    (g.length = 5 →
      WordleTrainer._validate_guess lex (new_random_wordle w) g =
        Except.error "Target word not set") ∧
    (g.length ≠ 5 →
      WordleTrainer._validate_guess lex (new_random_wordle w) g =
        Except.ok false) ∧
    (WordleTrainer.reset (some w)).target_word = some w := by
  refine ⟨rfl, rfl, ?_, ?_, rfl⟩
  · intro hg
    unfold WordleTrainer._validate_guess
    rw [if_neg (by rw [hg]; simp)]
    rfl
  · intro hg
    unfold WordleTrainer._validate_guess
    rw [if_pos hg]

/-- Witness for C10: validating the five-letter guess HOUSE on a freshly
constructed trainer raises the missing-target fault. -/
theorem constructor_discards_target_witness :
    WordleTrainer._validate_guess ∅
      (new_random_wordle ['C','R','A','N','E']) ['H','O','U','S','E'] =
      Except.error "Target word not set" :=
  (constructor_discards_target ∅ ['C','R','A','N','E']
    ['H','O','U','S','E']).2.2.1 (by decide)

/-- C2: when no lexicon word satisfies all constraints, `possible_words`
raises the contradiction fault instead of returning an empty set; when some
word satisfies them, it returns exactly the non-empty set of satisfying
words without fault. -/
theorem contradiction_fault (lex : Finset Word) (st : WordleTrainer) :
    ((¬ ∃ w ∈ lex, SatisfiesConstraints st w) →
      possible_words lex st =
        Except.error "No words are possible. Something went wrong!") ∧
    ((∃ w ∈ lex, SatisfiesConstraints st w) →
      ∃ S, possible_words lex st = Except.ok S ∧ S ≠ ∅ ∧
        ∀ w, w ∈ S ↔ w ∈ lex ∧ SatisfiesConstraints st w) := by
  constructor
  · intro hno
    have hempty : remaining_words lex st = ∅ := by
      rw [Finset.eq_empty_iff_forall_not_mem]
      intro w hw
      rw [mem_remaining_words] at hw
      exact hno ⟨w, hw.1, hw.2⟩
    rcases possible_words_spec lex st with ⟨_, hpw⟩ | ⟨hne, _⟩
    · exact hpw
    · exact absurd hempty hne
  · rintro ⟨w, hwl, hws⟩
    have hmem : w ∈ remaining_words lex st :=
      (mem_remaining_words _ _ _).2 ⟨hwl, hws⟩
    have hne : remaining_words lex st ≠ ∅ := fun hcon => by
      rw [hcon] at hmem
      exact absurd hmem (Finset.not_mem_empty w)
    rcases possible_words_spec lex st with ⟨he, _⟩ | ⟨_, hpw⟩
    · exact absurd he hne
    · exact ⟨remaining_words lex st, hpw, hne,
        fun v => mem_remaining_words lex st v⟩

/-- Witness for C2, the contradiction scenario of the spec: Green(0,'C')
followed by Gray("C") over a one-word lexicon whose word carries a second C
makes the candidate query raise the contradiction fault. -/
theorem contradiction_fault_witness :
    possible_words {(['C','O','C','O','A'] : Word)}
      (WordleTrainer.gray
        ((WordleTrainer.green (WordleTrainer.reset none)
          ['C','-','-','-','-']).1) ['C']) =
      Except.error "No words are possible. Something went wrong!" :=
  (contradiction_fault {(['C','O','C','O','A'] : Word)}
    (WordleTrainer.gray
      ((WordleTrainer.green (WordleTrainer.reset none)
        ['C','-','-','-','-']).1) ['C'])).1 (by decide)

/-- C3: whenever `possible_words` returns a result, a word belongs to it
exactly when it is a lexicon word whose letter at every one of the five
positions is in that position's possible set and which contains every
letter of `included`. -/
theorem candidate_filter_contract (lex : Finset Word) (st : WordleTrainer)
    (S : Finset Word) (h : possible_words lex st = Except.ok S) (w : Word) :
    w ∈ S ↔ w ∈ lex ∧
      (∀ i : Fin 5, charAtOk i.val (st.possible_letters i) w = true) ∧
      (∀ c ∈ st.included, c ∈ w) := by
  obtain ⟨hS, -⟩ := possible_words_ok lex st S h
  rw [hS, mem_remaining_words]
  exact Iff.rfl

/-- Witness for C3 at a concrete store: over the one-word lexicon with a
fresh store, the returned set contains the word and the two filter clauses
hold of it. -/
theorem candidate_filter_contract_witness :
    (['A','A','A','A','A'] : Word) ∈ ({['A','A','A','A','A']} : Finset Word) ↔
      (['A','A','A','A','A'] : Word) ∈ ({['A','A','A','A','A']} : Finset Word) ∧
      (∀ i : Fin 5,
        charAtOk i.val ((WordleTrainer.reset none).possible_letters i)
          ['A','A','A','A','A'] = true) ∧
      (∀ c ∈ (WordleTrainer.reset none).included,
        c ∈ (['A','A','A','A','A'] : Word)) :=
  candidate_filter_contract {['A','A','A','A','A']} (WordleTrainer.reset none)
    {['A','A','A','A','A']} (by decide) ['A','A','A','A','A']

/-- C1 (soundness): starting from a reset store holding a five-letter
upper-case target from the lexicon, after any sequence of green, yellow and
gray commands each consistent with that target under the evaluation
semantics of `_evaluate_guess_char`, the candidate query succeeds and the
target is a member of the returned set. -/
theorem soundness_target_in_candidates (lex : Finset Word) (t : Word)
    (ops : List FeedbackOp) (hmem : t ∈ lex) (hlen : t.length = 5)
    (halpha : ∀ c ∈ t, c ∈ ascii_uppercase.toFinset)
    (hops : ∀ op ∈ ops, ConsistentOp t op) :
    ∃ S, possible_words lex
        (applyFeedbacks ops (WordleTrainer.reset (some t))) =
      Except.ok S ∧ t ∈ S := by
  have hsat : SatisfiesConstraints
      (applyFeedbacks ops (WordleTrainer.reset (some t))) t :=
    satisfies_applyFeedbacks ops _ t (satisfies_reset _ t hlen halpha) hops
  have hmem' : t ∈ remaining_words lex
      (applyFeedbacks ops (WordleTrainer.reset (some t))) :=
    (mem_remaining_words _ _ _).2 ⟨hmem, hsat⟩
  have hne : remaining_words lex
      (applyFeedbacks ops (WordleTrainer.reset (some t))) ≠ ∅ := fun hcon => by
    rw [hcon] at hmem'
    exact absurd hmem' (Finset.not_mem_empty t)
  rcases possible_words_spec lex
      (applyFeedbacks ops (WordleTrainer.reset (some t))) with
    ⟨he, _⟩ | ⟨_, hpw⟩
  · exact absurd he hne
  · exact ⟨_, hpw, hmem'⟩

/-- Witness for C1: CRANE survives a green C at position 0, a yellow A at
position 3 and gray feedback on X, Y, Z. -/
theorem soundness_target_in_candidates_witness :
    ∃ S, possible_words {(['C','R','A','N','E'] : Word)}
        (applyFeedbacks
          [FeedbackOp.green ['C','-','-','-','-'],
            FeedbackOp.yellow ['-','-','-','A','-'],
            FeedbackOp.gray ['X','Y','Z']]
          (WordleTrainer.reset (some ['C','R','A','N','E']))) =
      Except.ok S ∧ (['C','R','A','N','E'] : Word) ∈ S :=
  soundness_target_in_candidates {(['C','R','A','N','E'] : Word)}
    ['C','R','A','N','E']
    [FeedbackOp.green ['C','-','-','-','-'],
      FeedbackOp.yellow ['-','-','-','A','-'],
      FeedbackOp.gray ['X','Y','Z']]
    (by decide) (by decide) (by decide) (by decide)

lemma find_freq_eq (lex : Finset Word) (st : WordleTrainer) (S : Finset Word)
    (h : possible_words lex st = Except.ok S) :
    find_best_guess_by_frequency lex st =
      Except.ok (bestFold
        (fun w => _get_frequency_score st (frequencies S) w)
        (finsetSorted (if st.hardmode then S else lex))).2 := by
  unfold find_best_guess_by_frequency
  rw [h]

lemma find_index_eq (lex : Finset Word) (st : WordleTrainer) (S : Finset Word)
    (h : possible_words lex st = Except.ok S) :
    find_best_guess_by_index lex st =
      Except.ok (bestFold
        (fun w => _get_index_frequency_score (index_frequencies S) w)
        (finsetSorted (if st.hardmode then S else lex))).2 := by
  unfold find_best_guess_by_index
  rw [h]

lemma find_combined_eq (lex : Finset Word) (st : WordleTrainer)
    (S : Finset Word) (h : possible_words lex st = Except.ok S) :
    find_best_guess_combined lex st =
      Except.ok (bestFold
        (fun w => _get_frequency_score st (frequencies S) w +
          _get_index_frequency_score (index_frequencies S) w)
        (finsetSorted (if st.hardmode then S else lex))).2 := by
  unfold find_best_guess_combined
  rw [h]

/-- The tie list produced over a sorted pool is exactly the set of words of
the pool with maximal score. -/
lemma bestFold_pool_argmax (score : Word → Nat) (pool : Finset Word)
    (w : Word) :
    w ∈ (bestFold score (finsetSorted pool)).2 ↔
      w ∈ pool ∧ ∀ v ∈ pool, score v ≤ score w := by
  rw [bestFold_argmax]
  constructor
  · rintro ⟨hw, hmax⟩
    exact ⟨(mem_finsetSorted _ _).1 hw,
      fun v hv => hmax v ((mem_finsetSorted _ _).2 hv)⟩
  · rintro ⟨hw, hmax⟩
    exact ⟨(mem_finsetSorted _ _).2 hw,
      fun v hv => hmax v ((mem_finsetSorted _ _).1 hv)⟩

/-- Counterexample for C4 as stated: a valid (single-letter) Green that
contradicts an earlier Green can grow the candidate set.  After Green(0,'A')
the one word starting with A remains; a further Green(0,'B') moves the
store to a state whose candidate set holds the two words starting with B
and containing A. -/
theorem monotonic_narrowing_cex :
    possible_words
        {(['A','A','A','A','A'] : Word), ['B','A','A','A','A'],
          ['B','B','A','A','A']}
        ((WordleTrainer.assign_at_index (WordleTrainer.reset none) 0
          ['A']).1) =
      Except.ok {(['A','A','A','A','A'] : Word)} ∧
    possible_words
        {(['A','A','A','A','A'] : Word), ['B','A','A','A','A'],
          ['B','B','A','A','A']}
        ((applyPrim
          ((WordleTrainer.assign_at_index (WordleTrainer.reset none) 0
            ['A']).1)
          (PrimOp.greenOp 0 'B')).1) =
      Except.ok {(['B','A','A','A','A'] : Word), ['B','B','A','A','A']} ∧
    Finset.card {(['A','A','A','A','A'] : Word)} <
      Finset.card {(['B','A','A','A','A'] : Word), ['B','B','A','A','A']} := by
  refine ⟨by decide, by decide, by decide⟩

/-- C4 (amended): a Yellow (`include` then `exclude_at_index`) or Gray
(`exclude`) operation never increases the candidate-set size, and neither
does a valid single-letter Green (`assign_at_index`) whose letter is still
possible at its position; a Green whose letter contradicts the position's
set can increase it (see the counterexample). -/
theorem monotonic_narrowing_amended (lex : Finset Word) (st : WordleTrainer)
    (op : PrimOp) (S S' : Finset Word) (hv : PrimOpValid st op)
    (hS : possible_words lex st = Except.ok S)
    (hS' : possible_words lex ((applyPrim st op).1) = Except.ok S') :
    S'.card ≤ S.card := by
  obtain ⟨hS1, -⟩ := possible_words_ok lex st S hS
  obtain ⟨hS1', -⟩ := possible_words_ok lex _ S' hS'
  rw [hS1, hS1']
  apply Finset.card_le_card
  apply remaining_words_mono
  · intro j
    cases op with
    | greenOp i c =>
      show ((WordleTrainer.assign_at_index st i [c]).1).possible_letters j ⊆ _
      rw [assign_ok]
      simp only [Function.update_apply]
      by_cases hj : j = i
      · subst hj
        rw [if_pos rfl]
        exact Finset.singleton_subset_iff.2 hv
      · rw [if_neg hj]
    | yellowOp i c =>
      show (WordleTrainer.exclude_at_index
        (WordleTrainer.include_chars st [c]) i [c]).possible_letters j ⊆ _
      rw [exclude_at_index_pl]
      by_cases hj : j = i
      · subst hj
        rw [if_pos rfl]
        by_cases hc : 1 < ((WordleTrainer.include_chars st [c]).possible_letters j).card
        · rw [if_pos hc]
          exact Finset.sdiff_subset
        · rw [if_neg hc]
          exact Finset.Subset.refl _
      · rw [if_neg hj]
        exact Finset.Subset.refl _
    | grayOp s =>
      show (WordleTrainer.exclude st s).possible_letters j ⊆ _
      rw [exclude_pl]
      by_cases hc : 1 < (st.possible_letters j).card
      · rw [if_pos hc]
        exact Finset.sdiff_subset
      · rw [if_neg hc]
  · cases op with
    | greenOp i c =>
      show st.included ⊆ ((WordleTrainer.assign_at_index st i [c]).1).included
      exact assign_at_index_included_sub st i [c]
    | yellowOp i c =>
      show st.included ⊆ (WordleTrainer.exclude_at_index
        (WordleTrainer.include_chars st [c]) i [c]).included
      rw [exclude_at_index_included]
      exact Finset.subset_union_left
    | grayOp s =>
      show st.included ⊆ (WordleTrainer.exclude st s).included
      rw [exclude_included]

/-- Witness for the amended C4: over a one-word lexicon, Gray("X") applied
to a fresh store keeps the candidate count at one. -/
theorem monotonic_narrowing_amended_witness :
    (Finset.card ({(['A','A','A','A','A'] : Word)} : Finset Word)) ≤
      Finset.card ({(['A','A','A','A','A'] : Word)} : Finset Word) :=
  monotonic_narrowing_amended {(['A','A','A','A','A'] : Word)}
    (WordleTrainer.reset none) (PrimOp.grayOp ['X'])
    {(['A','A','A','A','A'] : Word)} {(['A','A','A','A','A'] : Word)}
    (by decide) (by decide) (by decide)

/-- C6: when the candidate query succeeds, every word any of the three
recommenders can return lies in the candidate set when hardmode is on, and
in the full lexicon when hardmode is off. -/
theorem hardmode_pool_switch (lex : Finset Word) (st : WordleTrainer)
    (S : Finset Word) (h : possible_words lex st = Except.ok S)
    (L : List Word)
    (hL : find_best_guess_by_frequency lex st = Except.ok L ∨
      find_best_guess_by_index lex st = Except.ok L ∨
      find_best_guess_combined lex st = Except.ok L)
    (w : Word) (hw : w ∈ L) :
    (st.hardmode = true → w ∈ S) ∧ (st.hardmode = false → w ∈ lex) := by
  have hpool : w ∈ (if st.hardmode then S else lex) := by
    rcases hL with hL | hL | hL
    · rw [find_freq_eq lex st S h] at hL
      obtain rfl := Except.ok.inj hL
      exact ((bestFold_pool_argmax _ _ w).1 hw).1
    · rw [find_index_eq lex st S h] at hL
      obtain rfl := Except.ok.inj hL
      exact ((bestFold_pool_argmax _ _ w).1 hw).1
    · rw [find_combined_eq lex st S h] at hL
      obtain rfl := Except.ok.inj hL
      exact ((bestFold_pool_argmax _ _ w).1 hw).1
  constructor
  · intro hm
    rw [hm] at hpool
    simpa using hpool
  · intro hm
    rw [hm] at hpool
    simpa using hpool

/-- Witness for C6: over a two-word lexicon with hardmode off, the
information recommender returns BAAAA, which is in the lexicon. -/
theorem hardmode_pool_switch_witness :
    (['B','A','A','A','A'] : Word) ∈
      ({['A','A','A','A','A'], ['B','A','A','A','A']} : Finset Word) :=
  (hardmode_pool_switch
    {(['A','A','A','A','A'] : Word), ['B','A','A','A','A']}
    (WordleTrainer.reset none)
    {(['A','A','A','A','A'] : Word), ['B','A','A','A','A']}
    (by decide) [['B','A','A','A','A']] (Or.inl (by decide))
    ['B','A','A','A','A'] (by decide)).2 rfl

/-- C7: when the candidate query succeeds, the tie list of each of the
three scoring modes is exactly the set of pool words of maximal score for
that mode — the score computation is deterministic and randomness is
confined to the choice among the tied maximizers. -/
theorem score_determinism_mod_ties (lex : Finset Word) (st : WordleTrainer)
    (S : Finset Word) (h : possible_words lex st = Except.ok S) :
    (∀ L, find_best_guess_by_frequency lex st = Except.ok L →
      ∀ w, w ∈ L ↔ w ∈ (if st.hardmode then S else lex) ∧
        ∀ v ∈ (if st.hardmode then S else lex),
          _get_frequency_score st (frequencies S) v ≤
            _get_frequency_score st (frequencies S) w) ∧
    (∀ L, find_best_guess_by_index lex st = Except.ok L →
      ∀ w, w ∈ L ↔ w ∈ (if st.hardmode then S else lex) ∧
        ∀ v ∈ (if st.hardmode then S else lex),
          _get_index_frequency_score (index_frequencies S) v ≤
            _get_index_frequency_score (index_frequencies S) w) ∧
    (∀ L, find_best_guess_combined lex st = Except.ok L →
      ∀ w, w ∈ L ↔ w ∈ (if st.hardmode then S else lex) ∧
        ∀ v ∈ (if st.hardmode then S else lex),
          _get_frequency_score st (frequencies S) v +
              _get_index_frequency_score (index_frequencies S) v ≤
            _get_frequency_score st (frequencies S) w +
              _get_index_frequency_score (index_frequencies S) w) := by
  refine ⟨?_, ?_, ?_⟩
  · intro L hL w
    rw [find_freq_eq lex st S h] at hL
    obtain rfl := Except.ok.inj hL
    exact bestFold_pool_argmax _ _ w
  · intro L hL w
    rw [find_index_eq lex st S h] at hL
    obtain rfl := Except.ok.inj hL
    exact bestFold_pool_argmax _ _ w
  · intro L hL w
    rw [find_combined_eq lex st S h] at hL
    obtain rfl := Except.ok.inj hL
    exact bestFold_pool_argmax _ _ w

/-- Witness for C7: over the two-word lexicon, the returned word BAAAA has
an information score at least that of AAAAA. -/
theorem score_determinism_mod_ties_witness :
    _get_frequency_score (WordleTrainer.reset none)
        (frequencies
          {(['A','A','A','A','A'] : Word), ['B','A','A','A','A']})
        ['A','A','A','A','A'] ≤
      _get_frequency_score (WordleTrainer.reset none)
        (frequencies
          {(['A','A','A','A','A'] : Word), ['B','A','A','A','A']})
        ['B','A','A','A','A'] :=
  ((((score_determinism_mod_ties
      {(['A','A','A','A','A'] : Word), ['B','A','A','A','A']}
      (WordleTrainer.reset none)
      {(['A','A','A','A','A'] : Word), ['B','A','A','A','A']}
      (by decide)).1 [['B','A','A','A','A']] (by decide)
      ['B','A','A','A','A']).1 (by decide)).2
    ['A','A','A','A','A'] (by decide))

/-- C9: every reachable constraint store has an empty `excluded` set — the
operations of the class never populate it — so the guard against excluded
letters in the information score is vacuous and `excluded` never changes a
score. -/
theorem excluded_always_empty (st : WordleTrainer) (h : Reachable st) :
    st.excluded = ∅ ∧
    ∀ (freq : Char → Nat) (w : Word),
      _get_frequency_score st freq w =
        (w.toFinset.filter (fun c => c ∉ st.included)).sum freq := by
  have hex : st.excluded = ∅ := by
    induction h with
    | reset t => rfl
    | green st s _ ih => rw [green_excluded]; exact ih
    | yellow st s _ ih => rw [yellow_excluded]; exact ih
    | gray st s _ ih =>
      show (WordleTrainer.exclude st (s.map Char.toUpper)).excluded = ∅
      rw [exclude_excluded]; exact ih
    | assign st i c _ ih => rw [assign_at_index_excluded]; exact ih
    | includeC st s _ ih => exact ih
    | excludeC st s _ ih => rw [exclude_excluded]; exact ih
    | excludeAt st i s _ ih => rw [exclude_at_index_excluded]; exact ih
    | toggle st _ ih => exact ih
  refine ⟨hex, ?_⟩
  intro freq w
  unfold _get_frequency_score
  congr 1
  apply Finset.filter_congr
  intro c _
  simp [hex]

/-- Witness for C9: the store reached by a single Gray command has an empty
`excluded` set. -/
theorem excluded_always_empty_witness :
    (WordleTrainer.gray (WordleTrainer.reset none) ['X','Y']).excluded = ∅ :=
  (excluded_always_empty _
    (Reachable.gray (WordleTrainer.reset none) ['X','Y']
      (Reachable.reset none))).1
